import Mathlib

/-!
# Verification of `scripts/tes4_pack.py`

A shallow embedding of the archive-packing helper script.  The script
enumerates the power set of four BSA archive flags, and for each
(format, flag-combination) pair builds a command line for the external
`bsarch` archiver.  Machine integers are modelled as `Nat` (all values
involved are small and non-negative), Python lists/tuples as `List`,
and Python strings as `String`.
-/

namespace Tes4Pack

/-- The flag values of the `Flags` enumeration, in definition order:
`directory_strings = 1 <<< 0`, `file_strings = 1 <<< 1`,
`compressed = 1 <<< 2`, `embedded_file_names = 1 <<< 8`.
Iterating the Python `IntFlag` class yields exactly these values in
this order. -/
def flagValues : List Nat := [1 <<< 0, 1 <<< 1, 1 <<< 2, 1 <<< 8]

/-- `itertools.combinations s r`: all size-`r` sublists of `s`, in the
lexicographic order of positions that `itertools` documents. -/
def combinations : List α → Nat → List (List α)
  | _, 0 => [[]]
  | [], _ + 1 => []
  | x :: xs, r + 1 => (combinations xs r).map (x :: ·) ++ combinations xs (r + 1)

/-- `powerset a_iterable`: chains `combinations s r` for
`r = 0, 1, ..., len s`, exactly as the script's
`itertools.chain.from_iterable(itertools.combinations(s, r) for r in range(len(s)+1))`. -/
def powerset (s : List α) : List (List α) :=
  (List.range (s.length + 1)).flatMap (combinations s)

/-- The concrete iterator contents of `powerset([flag.value for flag in Flags])`. -/
def flagCombinations : List (List Nat) := powerset flagValues

/-- `itertools.accumulate(combo, lambda sum, elem: sum | elem, initial=0)`:
with an `initial` value the iterator yields the initial value followed by
every partial fold, i.e. a left scan. -/
def accumulateOr (combo : List Nat) : List Nat :=
  List.scanl (· ||| ·) 0 combo

/-- `list(itertools.accumulate(...))[-1]`: Python's `[-1]` indexing takes
the last element and raises on an empty list; we model it by `getLast?`
with a default that is provably never used (`accumulateOr` never returns
`[]`). -/
def afOf (combo : List Nat) : Nat :=
  ((accumulateOr combo).getLast?).getD 0

/-- The uppercase hexadecimal digit characters used by Python's `{:X}`
format specifier. -/
def hexDigitChar : Nat → Char
  | 0 => '0' | 1 => '1' | 2 => '2' | 3 => '3'
  | 4 => '4' | 5 => '5' | 6 => '6' | 7 => '7'
  | 8 => '8' | 9 => '9' | 10 => 'A' | 11 => 'B'
  | 12 => 'C' | 13 => 'D' | 14 => 'E' | 15 => 'F'
  | _ => '*'

/-- Digit extraction loop for uppercase hexadecimal rendering, written
with explicit fuel so that it is structurally recursive.  `fuel ≥ n`
always suffices (each step divides `n` by 16). -/
def hexCharsCore (fuel : Nat) (n : Nat) (acc : List Char) : List Char :=
  match fuel with
  | 0 => acc
  | fuel + 1 =>
    if n < 16 then hexDigitChar n :: acc
    else hexCharsCore fuel (n / 16) (hexDigitChar (n % 16) :: acc)

/-- The digit string of `n` in uppercase hexadecimal, most significant
digit first, no leading zeros (and `"0"` for `n = 0`), as produced by
Python's `"{:X}".format(n)` for a non-negative `n`. -/
def hexChars (n : Nat) : List Char :=
  hexCharsCore (n + 1) n []

/-- Python `"{:X}".format n` for non-negative `n`. -/
def toHexUpper (n : Nat) : String :=
  ⟨hexChars n⟩

/-- `"{}_{:X}.bsa".format(format, af)`. -/
def bsaFilename (format : String) (af : Nat) : String :=
  format ++ "_" ++ toHexUpper af ++ ".bsa"

/-- The argument vector handed to `subprocess.run` for one
(format, flag value) pair. -/
def mkCmd (bsarch directory format : String) (af : Nat) : List String :=
  [ bsarch,
    "pack",
    directory,
    bsaFilename format af,
    "-" ++ format,
    "-af:0x" ++ toHexUpper af ]

/-- The format tuple `("tes4", "tes5", "sse")`. -/
def formats : List String := ["tes4", "tes5", "sse"]

/-- The list of command lines issued by `combinate`, in order.

In the script, `combinations = powerset(...)` binds a one-shot generator
once, before the `for format in formats` loop; each pass of the inner
`for combo in combinations` loop drains whatever the iterator still
holds and leaves it exhausted.  We model that by threading the
iterator's remaining contents through a fold over `formats`: each format
consumes the whole remainder and leaves `[]` behind. -/
def combinate (bsarch directory : String) : List (List String) :=
  (formats.foldl
    (fun (acc : List (List String) × List (List Nat)) format =>
      (acc.1 ++ acc.2.map (fun combo => mkCmd bsarch directory format (afOf combo)),
       ([] : List (List Nat))))
    (([] : List (List String)), flagCombinations)).1

/-- What the nested loops would produce if the `combinations` iterator
were re-created (or were a list) for each format: the full
Format × Flag-Combination cross product.  This is the behaviour the
script's own help text ("generate archives with different
flags/formats") and the nested-loop structure intend. -/
def combinateIntended (bsarch directory : String) : List (List String) :=
  formats.flatMap (fun format =>
    flagCombinations.map (fun combo => mkCmd bsarch directory format (afOf combo)))

/-- The bitwise OR of all values in a list (the mathematical "OR of the
subset" that the accumulated flag value is claimed to equal). -/
def orAll (l : List Nat) : Nat :=
  l.foldr (· ||| ·) 0

/-- The numeric value of an uppercase hexadecimal digit character. -/
def hexDigitVal : Char → Nat
  | '0' => 0 | '1' => 1 | '2' => 2 | '3' => 3
  | '4' => 4 | '5' => 5 | '6' => 6 | '7' => 7
  | '8' => 8 | '9' => 9 | 'A' => 10 | 'B' => 11
  | 'C' => 12 | 'D' => 13 | 'E' => 14 | 'F' => 15
  | _ => 0

/-- The value denoted by a string of hexadecimal digits, most
significant first. -/
def fromHexChars (l : List Char) : Nat :=
  l.foldl (fun acc c => 16 * acc + hexDigitVal c) 0

/-- The sixteen uppercase hexadecimal digit characters. -/
def uppercaseHexDigits : List Char :=
  ['0', '1', '2', '3', '4', '5', '6', '7', '8', '9', 'A', 'B', 'C', 'D', 'E', 'F']

/-- Sequential fail-fast execution of a list of command lines, the
semantics of the loop of `subprocess.run(..., check=True)` calls.
`exec` is an oracle saying whether one invocation succeeds (it returns
`false` both for a non-zero exit status and for a spawn failure such as
a non-executable archiver path; either way `subprocess.run` raises and
the exception propagates out of `combinate`).  The result is the list
of invocations actually attempted, in order, together with `true` for a
clean exit and `false` for an aborted run (the uncaught exception makes
the Python process terminate with a non-zero status). -/
def runJobs (exec : List String → Bool) : List (List String) → List (List String) × Bool
  | [] => ([], true)
  | c :: cs =>
    if exec c then
      let r := runJobs exec cs
      (c :: r.1, r.2)
    else ([c], false)

/-- The observable side effects of `main`, in program order. -/
inductive Event where
  | chdirAbs : List String → Event
  | chdirRel : String → Event
  | makedirs : String → Event
  | invoke : List String → Event
deriving DecidableEq, Repr

/-- `e` is a change of the current working directory. -/
def Event.isChdir : Event → Prop
  | .chdirAbs _ => True
  | .chdirRel _ => True
  | _ => False

instance : DecidablePred Event.isChdir := fun e => by
  cases e <;> simp [Event.isChdir] <;> infer_instance

/-- An abstract filesystem: the current working directory, the set of
existing directories and the set of created files, every path a list of
components. -/
structure FsState where
  cwd : List String
  dirs : List (List String)
  files : List (List String)
deriving DecidableEq, Repr

/-- One event's effect on the filesystem.  `makedirs` with
`exist_ok=True` leaves the state unchanged when the directory already
exists; an `invoke` creates the archive named by the fourth argument of
the command line inside the current working directory. -/
def Fs.step (s : FsState) : Event → FsState
  | .chdirAbs p => { s with cwd := p }
  | .chdirRel name => { s with cwd := s.cwd ++ [name] }
  | .makedirs name =>
    if s.cwd ++ [name] ∈ s.dirs then s
    else { s with dirs := (s.cwd ++ [name]) :: s.dirs }
  | .invoke cmd =>
    match cmd.get? 3 with
    | some f => { s with files := (s.cwd ++ [f]) :: s.files }
    | none => s

/-- Run a list of events from a starting filesystem state. -/
def runEvents (s : FsState) (evs : List Event) : FsState :=
  evs.foldl Fs.step s

/-- The three startup effects of `main`, in order:
`os.chdir(os.path.dirname(os.path.realpath(__file__)))`,
`os.makedirs("bin", exist_ok=True)`, `os.chdir("bin")`.
`scriptDir` is the directory containing the script. -/
def setupEvents (scriptDir : List String) : List Event :=
  [.chdirAbs scriptDir, .makedirs "bin", .chdirRel "bin"]

/-- The full event trace of `main`: the startup effects followed by one
`invoke` per command line issued by `combinate`. -/
def mainEvents (scriptDir : List String) (bsarch directory : String) : List Event :=
  setupEvents scriptDir ++ (combinate bsarch directory).map Event.invoke

/-! ## General lemmas about the OR fold and the OR scan -/

theorem foldl_or_init (l : List Nat) :
    ∀ init : Nat, l.foldl (· ||| ·) init = init ||| l.foldl (· ||| ·) 0 := by
  induction l with
  | nil => intro init; simp
  | cons x xs ih =>
    intro init
    simp only [List.foldl_cons]
    rw [ih (init ||| x), ih (0 ||| x)]
    simp [Nat.or_assoc]

theorem foldl_or_eq_orAll (l : List Nat) : l.foldl (· ||| ·) 0 = orAll l := by
  induction l with
  | nil => rfl
  | cons x xs ih =>
    simp only [List.foldl_cons, orAll, List.foldr_cons]
    rw [foldl_or_init, ih]
    simp [orAll]

theorem foldl_or_perm {l₁ l₂ : List Nat} (h : l₁.Perm l₂) :
    l₁.foldl (· ||| ·) 0 = l₂.foldl (· ||| ·) 0 := by
  induction h with
  | nil => rfl
  | cons x _ ih =>
    simp only [List.foldl_cons]
    rw [foldl_or_init _ (0 ||| x), foldl_or_init _ (0 ||| x), ih]
  | swap x y l =>
    simp only [List.foldl_cons]
    have hacc : 0 ||| y ||| x = 0 ||| x ||| y := by
      simp [Nat.zero_or, Nat.or_comm]
    rw [hacc]
  | trans _ _ ih₁ ih₂ => exact ih₁.trans ih₂

theorem getLast?_cons_of_ne_nil {α : Type} (a : α) {l : List α} (h : l ≠ []) :
    (a :: l).getLast? = l.getLast? := by
  cases l with
  | nil => exact absurd rfl h
  | cons b t => exact List.getLast?_cons_cons

theorem scanl_or_ne_nil (init : Nat) (xs : List Nat) :
    List.scanl (· ||| ·) init xs ≠ [] := by
  cases xs <;> simp [List.scanl]

theorem getLast?_scanl_or (l : List Nat) :
    ∀ init : Nat, (List.scanl (· ||| ·) init l).getLast? = some (l.foldl (· ||| ·) init) := by
  induction l with
  | nil => intro init; simp
  | cons x xs ih =>
    intro init
    rw [List.scanl_cons, List.singleton_append]
    rw [getLast?_cons_of_ne_nil init (scanl_or_ne_nil (init ||| x) xs)]
    rw [ih (init ||| x)]
    rfl

theorem accumulateOr_ne_nil (combo : List Nat) : accumulateOr combo ≠ [] := by
  cases combo <;> simp [accumulateOr, List.scanl]

theorem afOf_eq_foldl (combo : List Nat) : afOf combo = combo.foldl (· ||| ·) 0 := by
  simp [afOf, accumulateOr, getLast?_scanl_or]

/-! ## The shape of `combinate`'s output -/

theorem combinate_eq (b d : String) :
    combinate b d = flagCombinations.map (fun combo => mkCmd b d "tes4" (afOf combo)) := by
  simp [combinate, formats]

theorem afOf_mem_submask : ∀ combo ∈ flagCombinations, afOf combo ||| 0x107 = 0x107 := by
  decide

/-! ## Correctness of the uppercase hexadecimal rendering -/

theorem hexCharsCore_zero (n : Nat) (acc : List Char) : hexCharsCore 0 n acc = acc := rfl

theorem hexCharsCore_succ (fuel n : Nat) (acc : List Char) :
    hexCharsCore (fuel + 1) n acc =
      if n < 16 then hexDigitChar n :: acc
      else hexCharsCore fuel (n / 16) (hexDigitChar (n % 16) :: acc) := rfl

theorem hexCharsCore_fuel : ∀ f₁ f₂ n : Nat, ∀ acc : List Char, n ≤ f₁ → n ≤ f₂ →
    hexCharsCore (f₁ + 1) n acc = hexCharsCore (f₂ + 1) n acc := by
  intro f₁
  induction f₁ with
  | zero =>
    intro f₂ n acc h1 _
    have hn : n = 0 := Nat.le_zero.mp h1
    subst hn
    rw [hexCharsCore_succ 0 0 acc, hexCharsCore_succ f₂ 0 acc]
    simp
  | succ f ih =>
    intro f₂ n acc h1 h2
    rw [hexCharsCore_succ (f + 1) n acc, hexCharsCore_succ f₂ n acc]
    by_cases hn : n < 16
    · simp only [if_pos hn]
    · obtain ⟨g, rfl⟩ : ∃ g, f₂ = g + 1 := ⟨f₂ - 1, by omega⟩
      have hdiv : n / 16 < n := Nat.div_lt_self (by omega) (by omega)
      simp only [if_neg hn]
      exact ih g (n / 16) _ (by omega) (by omega)

theorem hexCharsCore_acc : ∀ f n : Nat, ∀ acc : List Char, n ≤ f →
    hexCharsCore (f + 1) n acc = hexCharsCore (f + 1) n [] ++ acc := by
  intro f
  induction f with
  | zero =>
    intro n acc h
    have hn : n = 0 := Nat.le_zero.mp h
    subst hn
    rw [hexCharsCore_succ 0 0 acc, hexCharsCore_succ 0 0 ([] : List Char)]
    rfl
  | succ f ih =>
    intro n acc h
    rw [hexCharsCore_succ (f + 1) n acc, hexCharsCore_succ (f + 1) n ([] : List Char)]
    by_cases hn : n < 16
    · simp [if_pos hn]
    · have hdiv : n / 16 < n := Nat.div_lt_self (by omega) (by omega)
      simp only [if_neg hn]
      rw [ih (n / 16) (hexDigitChar (n % 16) :: acc) (by omega)]
      rw [ih (n / 16) [hexDigitChar (n % 16)] (by omega)]
      simp

theorem hexChars_lt {n : Nat} (h : n < 16) : hexChars n = [hexDigitChar n] := by
  show hexCharsCore (n + 1) n [] = [hexDigitChar n]
  rw [hexCharsCore_succ n n ([] : List Char), if_pos h]

theorem hexChars_ge {n : Nat} (h : 16 ≤ n) :
    hexChars n = hexChars (n / 16) ++ [hexDigitChar (n % 16)] := by
  have hdiv : n / 16 < n := Nat.div_lt_self (by omega) (by omega)
  obtain ⟨m, rfl⟩ : ∃ m, n = m + 1 := ⟨n - 1, by omega⟩
  show hexCharsCore (m + 1 + 1) (m + 1) [] = _
  rw [hexCharsCore_succ (m + 1) (m + 1) ([] : List Char), if_neg (by omega)]
  rw [hexCharsCore_fuel m ((m + 1) / 16) ((m + 1) / 16) _ (by omega) (by omega)]
  rw [hexCharsCore_acc ((m + 1) / 16) ((m + 1) / 16) _ (by omega)]
  rfl

theorem hexChars_ne_nil (n : Nat) : hexChars n ≠ [] := by
  by_cases h : n < 16
  · rw [hexChars_lt h]; simp
  · rw [hexChars_ge (by omega)]; simp

theorem fromHexChars_append (l : List Char) (c : Char) :
    fromHexChars (l ++ [c]) = 16 * fromHexChars l + hexDigitVal c := by
  simp [fromHexChars, List.foldl_append]

theorem hexDigitVal_hexDigitChar : ∀ d : Fin 16, hexDigitVal (hexDigitChar d.val) = d.val := by
  decide

theorem hexDigitChar_ne_zero : ∀ d : Fin 16, 0 < d.val → hexDigitChar d.val ≠ '0' := by
  decide

theorem hexDigitChar_mem : ∀ d : Fin 16, hexDigitChar d.val ∈ uppercaseHexDigits := by
  decide

theorem fromHex_hexChars (n : Nat) : fromHexChars (hexChars n) = n := by
  induction n using Nat.strong_induction_on with
  | _ n ih =>
    by_cases h : n < 16
    · rw [hexChars_lt h]
      have hd := hexDigitVal_hexDigitChar ⟨n, h⟩
      simp only [Fin.val_mk] at hd
      simp [fromHexChars, hd]
    · rw [hexChars_ge (by omega), fromHexChars_append]
      rw [ih (n / 16) (Nat.div_lt_self (by omega) (by omega))]
      have hd := hexDigitVal_hexDigitChar ⟨n % 16, Nat.mod_lt _ (by omega)⟩
      simp only [Fin.val_mk] at hd
      rw [hd]
      omega

theorem hexChars_head_ne_zero (n : Nat) (hn : 0 < n) :
    (hexChars n).head? ≠ some '0' := by
  induction n using Nat.strong_induction_on with
  | _ n ih =>
    by_cases h : n < 16
    · rw [hexChars_lt h]
      have := hexDigitChar_ne_zero ⟨n, h⟩ hn
      simpa using this
    · rw [hexChars_ge (by omega)]
      have hpos : 0 < n / 16 := Nat.div_pos (by omega) (by omega)
      obtain ⟨c, t, hct⟩ := List.exists_cons_of_ne_nil (hexChars_ne_nil (n / 16))
      have hhead := ih (n / 16) (Nat.div_lt_self (by omega) (by omega)) hpos
      rw [hct] at hhead ⊢
      simpa using hhead

theorem hexChars_mem_digits (n : Nat) :
    ∀ c ∈ hexChars n, c ∈ uppercaseHexDigits := by
  induction n using Nat.strong_induction_on with
  | _ n ih =>
    intro c hc
    by_cases h : n < 16
    · rw [hexChars_lt h] at hc
      rcases List.mem_singleton.mp hc with rfl
      exact hexDigitChar_mem ⟨n, h⟩
    · rw [hexChars_ge (by omega)] at hc
      rcases List.mem_append.mp hc with hc1 | hc2
      · exact ih (n / 16) (Nat.div_lt_self (by omega) (by omega)) c hc1
      · rcases List.mem_singleton.mp hc2 with rfl
        exact hexDigitChar_mem ⟨n % 16, Nat.mod_lt _ (by omega)⟩

theorem bsaFilename_zero (format : String) : bsaFilename format 0 = format ++ "_0.bsa" := by
  show format ++ "_" ++ toHexUpper 0 ++ ".bsa" = format ++ "_0.bsa"
  rw [String.append_assoc, String.append_assoc]
  congr 1

/-! ## Claim theorems -/

/-- C1: counter-evidence.  The claim says a run performs 48 invocations,
16 per format.  In the code, the `powerset` generator is bound once and
exhausted by the first format, so a run performs exactly 16 invocations,
all with format selector `-tes4`, and none for `-tes5` or `-sse`; the
intended re-iteration would have produced 48. -/
theorem combinate_only_sixteen_invocations :
    (combinate "bsarch" "dir").length = 16
    ∧ (combinate "bsarch" "dir").countP (fun cmd => cmd[4]? == some "-tes4") = 16
    ∧ (combinate "bsarch" "dir").countP (fun cmd => cmd[4]? == some "-tes5") = 0
    ∧ (combinate "bsarch" "dir").countP (fun cmd => cmd[4]? == some "-sse") = 0
    ∧ (combinateIntended "bsarch" "dir").length = 48 := by
  decide

/-- C2: the power-set enumeration over the four flag values yields
exactly 16 pairwise-distinct subsets, among them the empty subset
(accumulated value 0) and the full subset (accumulated value 0x107). -/
theorem powerset_flags_sixteen :
    flagCombinations.length = 16
    ∧ flagCombinations.Nodup
    ∧ [] ∈ flagCombinations
    ∧ flagValues ∈ flagCombinations
    ∧ afOf [] = 0
    ∧ afOf flagValues = 0x107 := by
  decide

/-- C3: for every flag combination, the left fold with bitwise OR seeded
with 0 equals the bitwise OR of all values of the subset, and any
reordering of the subset folds to the same value. -/
theorem fold_or_perm_invariant :
    ∀ combo ∈ flagCombinations, afOf combo = orAll combo ∧
      ∀ l : List Nat, combo.Perm l → l.foldl (· ||| ·) 0 = afOf combo := by
  intro combo _
  refine ⟨?_, ?_⟩
  · rw [afOf_eq_foldl, foldl_or_eq_orAll]
  · intro l hl
    rw [afOf_eq_foldl]
    exact foldl_or_perm hl.symm

/-- Witness for C3 at the combination `[1, 2]` and its reordering `[2, 1]`. -/
theorem fold_or_perm_invariant_witness :
    [1, 2] ∈ flagCombinations ∧
      List.foldl (· ||| ·) 0 [2, 1] = afOf [1, 2] :=
  ⟨by decide, (fold_or_perm_invariant [1, 2] (by decide)).2 [2, 1] (by decide)⟩

/-- C9: the `[-1]` indexing into the accumulate result never fails: the
scan is seeded with 0, so its output is non-empty for every combination;
its last element is the OR fold, and for the empty combination the
accumulated flag value is 0. -/
theorem accumulate_last_safe :
    ∀ combo : List Nat,
      accumulateOr combo ≠ []
      ∧ (accumulateOr combo).getLast? = some (combo.foldl (· ||| ·) 0)
      ∧ afOf [] = 0 := by
  intro combo
  exact ⟨accumulateOr_ne_nil combo, getLast?_scanl_or combo 0, by decide⟩

/-- C10: every invocation's accumulated flag value, as rendered in its
final `-af:0x…` argument, is a submask of 0x107: only the bits 0x1, 0x2,
0x4 and 0x100 can ever be set. -/
theorem af_submask (b d : String) (cmd : List String) (h : cmd ∈ combinate b d) :
    ∃ af, af ||| 0x107 = 0x107 ∧ cmd.getLast? = some ("-af:0x" ++ toHexUpper af) := by
  rw [combinate_eq] at h
  obtain ⟨combo, hc, rfl⟩ := List.mem_map.mp h
  exact ⟨afOf combo, afOf_mem_submask combo hc, rfl⟩

/-- Witness for C10 at the first invocation of a concrete run. -/
theorem af_submask_witness :
    ∃ af, af ||| 0x107 = 0x107 ∧
      (["b", "pack", "d", "tes4_0.bsa", "-tes4", "-af:0x0"] : List String).getLast? =
        some ("-af:0x" ++ toHexUpper af) :=
  af_submask "b" "d" _ (by decide)

/-- C4: the output filename is exactly `{format}_{flags:X}.bsa`: the flag
field is a string of uppercase hexadecimal digits whose value is the flag
word, with no leading zero (and the single digit `0` for flags = 0); in
particular "tes5" with 0x107 gives "tes5_107.bsa" and flags 0 gives
`{format}_0.bsa`. -/
theorem bsa_filename_format (format : String) (af : Nat) :
    bsaFilename format af = format ++ "_" ++ toHexUpper af ++ ".bsa"
    ∧ fromHexChars (hexChars af) = af
    ∧ (∀ c ∈ hexChars af, c ∈ uppercaseHexDigits)
    ∧ (0 < af → (hexChars af).head? ≠ some '0')
    ∧ bsaFilename "tes5" 0x107 = "tes5_107.bsa"
    ∧ bsaFilename format 0 = format ++ "_0.bsa" :=
  ⟨rfl, fromHex_hexChars af, hexChars_mem_digits af, hexChars_head_ne_zero af,
   by decide, bsaFilename_zero format⟩

/-- Witness for C4 at format "tes5" and flags 0x107 = 263. -/
theorem bsa_filename_format_witness :
    fromHexChars (hexChars 263) = 263
    ∧ (hexChars 263).head? ≠ some '0'
    ∧ '1' ∈ uppercaseHexDigits
    ∧ bsaFilename "tes5" 263 = "tes5_107.bsa" :=
  ⟨(bsa_filename_format "tes5" 263).2.1,
   (bsa_filename_format "tes5" 263).2.2.2.1 (by decide),
   (bsa_filename_format "tes5" 263).2.2.1 '1' (by decide),
   (bsa_filename_format "tes5" 263).2.2.2.2.1⟩

/-- C5: every invocation passes exactly six arguments, in order: the
archiver path, the literal "pack", the source directory, the output
filename, the format selector `-{format}` for a format of the format
tuple, and the accumulated-flags selector `-af:0x{flags:X}`. -/
theorem invocation_argv (bsarch directory : String) (cmd : List String)
    (h : cmd ∈ combinate bsarch directory) :
    cmd.length = 6 ∧
      ∃ format af, format ∈ formats ∧
        cmd = [bsarch, "pack", directory, bsaFilename format af, "-" ++ format,
               "-af:0x" ++ toHexUpper af] := by
  rw [combinate_eq] at h
  obtain ⟨combo, hc, rfl⟩ := List.mem_map.mp h
  exact ⟨rfl, "tes4", afOf combo, by decide, rfl⟩

/-- Witness for C5 at the first invocation of a concrete run. -/
theorem invocation_argv_witness :
    (["b", "pack", "d", "tes4_0.bsa", "-tes4", "-af:0x0"] : List String).length = 6 ∧
      ∃ format af, format ∈ formats ∧
        (["b", "pack", "d", "tes4_0.bsa", "-tes4", "-af:0x0"] : List String) =
          ["b", "pack", "d", bsaFilename format af, "-" ++ format,
           "-af:0x" ++ toHexUpper af] :=
  invocation_argv "b" "d" _ (by decide)

/-! ## Fail-fast execution -/

theorem runJobs_stops_at_first_failure (exec : List String → Bool) :
    ∀ (cmds : List (List String)) (i : Nat) (hi : i < cmds.length),
      (∀ j (hj : j < cmds.length), j < i → exec cmds[j] = true) →
      exec cmds[i] = false →
      runJobs exec cmds = (cmds.take (i + 1), false) := by
  intro cmds
  induction cmds with
  | nil =>
    intro i hi
    exact absurd hi (by simp)
  | cons c cs ih =>
    intro i hi hbefore hfail
    cases i with
    | zero =>
      rw [List.getElem_cons_zero] at hfail
      simp [runJobs, hfail]
    | succ k =>
      have hc : exec c = true := by
        have h0 := hbefore 0 (by simp) (by omega)
        rwa [List.getElem_cons_zero] at h0
      have hk : k < cs.length := by simpa using hi
      have hfail2 : exec cs[k] = false := by
        rwa [List.getElem_cons_succ] at hfail
      have hbefore2 : ∀ j (hj : j < cs.length), j < k → exec cs[j] = true := by
        intro j hj hjk
        have hs := hbefore (j + 1) (by simpa using Nat.succ_lt_succ hj) (Nat.succ_lt_succ hjk)
        rwa [List.getElem_cons_succ] at hs
      have hrec := ih k hk hbefore2 hfail2
      simp [runJobs, hc, hrec]

/-- C6: if an invocation fails — a non-zero exit status or an archiver
path that does not resolve to an executable, both modelled by the
oracle returning `false` — the run aborts right there: the attempted
jobs are exactly the ones up to and including the first failing one, no
later (format, flag-combination) job is attempted, and the run's
outcome is failure (a non-zero process exit status). -/
theorem fail_fast_abort (exec : List String → Bool) (b d : String) (i : Nat)
    (hi : i < (combinate b d).length)
    (hbefore : ∀ j (hj : j < (combinate b d).length), j < i →
      exec (combinate b d)[j] = true)
    (hfail : exec (combinate b d)[i] = false) :
    runJobs exec (combinate b d) = ((combinate b d).take (i + 1), false) :=
  runJobs_stops_at_first_failure exec (combinate b d) i hi hbefore hfail

/-- Witness for C6: an archiver that always fails (e.g. a non-executable
path) aborts a concrete run after attempting only the first job. -/
theorem fail_fast_abort_witness :
    runJobs (fun _ => false) (combinate "bsarch" "dir") =
      ((combinate "bsarch" "dir").take 1, false) :=
  fail_fast_abort (fun _ => false) "bsarch" "dir" 0 (by decide)
    (fun _ _ hj0 => absurd hj0 (by omega)) rfl

/-! ## The event trace of `main` -/

theorem runEvents_append (s : FsState) (evs₁ evs₂ : List Event) :
    runEvents s (evs₁ ++ evs₂) = runEvents (runEvents s evs₁) evs₂ := by
  simp [runEvents, List.foldl_append]

theorem step_invoke_cwd (s : FsState) (c : List String) :
    (Fs.step s (Event.invoke c)).cwd = s.cwd := by
  show (match c.get? 3 with
        | some f => { s with files := (s.cwd ++ [f]) :: s.files }
        | none => s).cwd = s.cwd
  split <;> rfl

theorem step_invoke_dirs (s : FsState) (c : List String) :
    (Fs.step s (Event.invoke c)).dirs = s.dirs := by
  show (match c.get? 3 with
        | some f => { s with files := (s.cwd ++ [f]) :: s.files }
        | none => s).dirs = s.dirs
  split <;> rfl

theorem step_invoke_files (s : FsState) (c : List String) :
    ∀ g ∈ (Fs.step s (Event.invoke c)).files,
      g ∈ s.files ∨ ∃ name, g = s.cwd ++ [name] := by
  show ∀ g ∈ (match c.get? 3 with
        | some f => { s with files := (s.cwd ++ [f]) :: s.files }
        | none => s).files,
      g ∈ s.files ∨ ∃ name, g = s.cwd ++ [name]
  split
  · intro g hg
    rcases List.mem_cons.mp hg with rfl | hg2
    · exact Or.inr ⟨_, rfl⟩
    · exact Or.inl hg2
  · intro g hg
    exact Or.inl hg

theorem runEvents_invokes : ∀ (cmds : List (List String)) (s : FsState),
    (runEvents s (cmds.map Event.invoke)).cwd = s.cwd
    ∧ (runEvents s (cmds.map Event.invoke)).dirs = s.dirs
    ∧ ∀ f ∈ (runEvents s (cmds.map Event.invoke)).files,
        f ∈ s.files ∨ ∃ name, f = s.cwd ++ [name] := by
  intro cmds
  induction cmds with
  | nil =>
    intro s
    exact ⟨rfl, rfl, fun _ hf => Or.inl hf⟩
  | cons c cs ih =>
    intro s
    have hstep : runEvents s ((c :: cs).map Event.invoke) =
        runEvents (Fs.step s (Event.invoke c)) (cs.map Event.invoke) := rfl
    obtain ⟨h1, h2, h3⟩ := ih (Fs.step s (Event.invoke c))
    rw [hstep]
    refine ⟨h1.trans (step_invoke_cwd s c), h2.trans (step_invoke_dirs s c),
      fun f hf => ?_⟩
    rcases h3 f hf with hmem | ⟨name, hname⟩
    · exact step_invoke_files s c f hmem
    · rw [step_invoke_cwd s c] at hname
      exact Or.inr ⟨name, hname⟩

theorem runEvents_setup (scriptDir : List String) (s : FsState) :
    (runEvents s (setupEvents scriptDir)).cwd = scriptDir ++ ["bin"]
    ∧ (scriptDir ++ ["bin"]) ∈ (runEvents s (setupEvents scriptDir)).dirs
    ∧ (runEvents s (setupEvents scriptDir)).files = s.files
    ∧ ((scriptDir ++ ["bin"]) ∈ s.dirs →
        (runEvents s (setupEvents scriptDir)).dirs = s.dirs) := by
  by_cases h : (scriptDir ++ ["bin"]) ∈ s.dirs <;>
    simp [runEvents, setupEvents, Fs.step, h]

/-- C7: before any archiver invocation, `main` creates (or, when it
already exists, reuses) the directory "bin" next to the script and
changes the working directory into it; the invocation loop leaves the
working directory untouched, so every generated archive file lands in
that directory. -/
theorem main_outputs_in_bin (scriptDir : List String) (b d : String) (s : FsState) :
    (runEvents s (setupEvents scriptDir)).cwd = scriptDir ++ ["bin"]
    ∧ (scriptDir ++ ["bin"]) ∈ (runEvents s (setupEvents scriptDir)).dirs
    ∧ ((scriptDir ++ ["bin"]) ∈ s.dirs →
        (runEvents s (setupEvents scriptDir)).dirs = s.dirs)
    ∧ (runEvents s (mainEvents scriptDir b d)).cwd = scriptDir ++ ["bin"]
    ∧ ∀ f ∈ (runEvents s (mainEvents scriptDir b d)).files,
        f ∈ s.files ∨ ∃ name, f = scriptDir ++ ["bin", name] := by
  obtain ⟨hcwd, hdirs, hfiles, hreuse⟩ := runEvents_setup scriptDir s
  have hsplit : runEvents s (mainEvents scriptDir b d) =
      runEvents (runEvents s (setupEvents scriptDir)) ((combinate b d).map Event.invoke) :=
    runEvents_append s _ _
  obtain ⟨icwd, idirs, ifiles⟩ :=
    runEvents_invokes (combinate b d) (runEvents s (setupEvents scriptDir))
  refine ⟨hcwd, hdirs, hreuse, ?_, ?_⟩
  · rw [hsplit, icwd, hcwd]
  · intro f hf
    rw [hsplit] at hf
    rcases ifiles f hf with hmem | ⟨name, hname⟩
    · rw [hfiles] at hmem
      exact Or.inl hmem
    · rw [hcwd] at hname
      subst hname
      exact Or.inr ⟨name, by simp⟩

/-- Witness for C7 on a concrete start state in which "bin" already
exists (so it is reused, not re-created). -/
theorem main_outputs_in_bin_witness :
    (runEvents ⟨["x"], [["s", "bin"]], []⟩ (setupEvents ["s"])).dirs = [["s", "bin"]]
    ∧ (runEvents ⟨["x"], [["s", "bin"]], []⟩ (mainEvents ["s"] "b" "d")).cwd = ["s", "bin"]
    ∧ ((["s", "bin", "tes4_0.bsa"] : List String) ∈
          (⟨["x"], [["s", "bin"]], []⟩ : FsState).files
        ∨ ∃ name, (["s", "bin", "tes4_0.bsa"] : List String) = ["s"] ++ ["bin", name]) :=
  ⟨(main_outputs_in_bin ["s"] "b" "d" ⟨["x"], [["s", "bin"]], []⟩).2.2.1 (by decide),
   (main_outputs_in_bin ["s"] "b" "d" ⟨["x"], [["s", "bin"]], []⟩).2.2.2.1,
   (main_outputs_in_bin ["s"] "b" "d" ⟨["x"], [["s", "bin"]], []⟩).2.2.2.2
     ["s", "bin", "tes4_0.bsa"] (by decide)⟩

/-- C8: the working directory is changed only during startup: every
working-directory change in `main`'s event trace sits among the first
three (setup) events, strictly before every archiver invocation; no step
of the invocation loop changes the working directory. -/
theorem cwd_changed_only_at_startup (scriptDir : List String) (b d : String)
    (i j : Nat) (e : Event) (cmd : List String)
    (hi : (mainEvents scriptDir b d)[i]? = some e) (he : e.isChdir)
    (hj : (mainEvents scriptDir b d)[j]? = some (Event.invoke cmd)) :
    i < 3 ∧ i < j := by
  have hilt : i < 3 := by
    by_contra hge
    push_neg at hge
    have hlen : (setupEvents scriptDir).length ≤ i := by
      simpa [setupEvents] using hge
    have h3 : (mainEvents scriptDir b d)[i]? =
        ((combinate b d).map Event.invoke)[i - (setupEvents scriptDir).length]? := by
      rw [mainEvents, List.getElem?_append_right hlen]
    rw [h3] at hi
    have hmem : e ∈ (combinate b d).map Event.invoke := List.getElem?_mem hi
    obtain ⟨c', _, rfl⟩ := List.mem_map.mp hmem
    exact he
  refine ⟨hilt, ?_⟩
  have hjge : 3 ≤ j := by
    by_contra hlt
    push_neg at hlt
    interval_cases j <;> simp [mainEvents, setupEvents] at hj
  omega

/-- Witness for C8: in a concrete trace, the first chdir (index 0)
precedes the first invocation (index 3). -/
theorem cwd_changed_only_at_startup_witness : (0 : Nat) < 3 ∧ (0 : Nat) < 3 :=
  cwd_changed_only_at_startup ["s"] "b" "d" 0 3 (Event.chdirAbs ["s"])
    ["b", "pack", "d", "tes4_0.bsa", "-tes4", "-af:0x0"]
    (by decide) (by decide) (by decide)

end Tes4Pack
